import Mathlib

/-!
# Verification of the YouTube/Twitch channel-finder pipeline

A shallow embedding of `app_working.py`. Strings are modelled as `List Char`
(so that Python's `split`, `startswith`, `in`, `replace` and `strip` can be
given executable, provable counterparts). Python's `None`-able strings become
`Option (List Char)`; exceptions raised by the network layer are modelled as
`Option`-returning oracles.
-/

namespace Scraper

/-- Python strings, modelled as lists of characters. -/
abbrev Str := List Char

/-- Boolean test that `a` is a leading segment of `b`
    (Python `b.startswith(a)`). -/
def isPre : Str → Str → Bool
  | [], _ => true
  | _ :: _, [] => false
  | a :: as, b :: bs => a == b && isPre as bs

/-- Index of the first occurrence of `sep` in `l`
    (`none` when `sep` does not occur; `sep` is assumed nonempty). -/
def findSep (sep : Str) : Str → Option Nat
  | [] => none
  | c :: rest =>
    if isPre sep (c :: rest) then some 0
    else (findSep sep rest).map (· + 1)

/-- Fuel-driven worker for `splitL` (fuel keeps the recursion structural, so
    concrete inputs evaluate by `decide`). -/
def splitLF (sep : Str) : Nat → Str → List Str
  | 0, l => [l]
  | fuel + 1, l =>
    match findSep sep l with
    | none => [l]
    | some i => l.take i :: splitLF sep fuel (l.drop (i + sep.length))

/-- Python `l.split(sep)` for a nonempty separator. -/
def splitL (sep l : Str) : List Str := splitLF sep (l.length + 1) l

/-- The text before the first occurrence of `sep` (the whole string when
    `sep` does not occur); equals `(splitL sep l).getD 0 []`. -/
def firstSeg (sep l : Str) : Str :=
  match findSep sep l with
  | none => l
  | some i => l.take i

/-- Python `sep in l` (substring containment) for a nonempty `sep`. -/
def hasSub (sep l : Str) : Bool := (findSep sep l).isSome

/-- ASCII whitespace recognizer used by `stripWs` (Python `str.strip`). -/
def isSpaceCh (c : Char) : Bool :=
  c == ' ' || c == '\t' || c == '\n' || c == '\r' || c.toNat == 11 || c.toNat == 12

/-- Python `s.strip()` on ASCII whitespace. -/
def stripWs (s : Str) : Str :=
  ((s.dropWhile isSpaceCh).reverse.dropWhile isSpaceCh).reverse

/-- The Google redirect wrapper marker `/url?q=`. -/
def redirPre : Str := ['/', 'u', 'r', 'l', '?', 'q', '=']

/-- The separator `&` used to cut the redirect target. -/
def ampStr : Str := ['&']

/-- The separator `/`. -/
def slashStr : Str := ['/']

/-- The separator `?`. -/
def qmStr : Str := ['?']

/-- Domain marker `youtube.com`. -/
def ytDomain : Str := ['y', 'o', 'u', 't', 'u', 'b', 'e', '.', 'c', 'o', 'm']

/-- Domain marker `twitch.tv`. -/
def twDomain : Str := ['t', 'w', 'i', 't', 'c', 'h', '.', 't', 'v']

/-- YouTube channel path pattern `/channel/`. -/
def patChannel : Str := ['/', 'c', 'h', 'a', 'n', 'n', 'e', 'l', '/']

/-- YouTube channel path pattern `/c/`. -/
def patC : Str := ['/', 'c', '/']

/-- YouTube channel path pattern `/@`. -/
def patAt : Str := ['/', '@']

/-- YouTube channel path pattern `/user/`. -/
def patUser : Str := ['/', 'u', 's', 'e', 'r', '/']

/-- The redirect-stripping step shared by both URL filters:
    Python `if url.startswith('/url?q='): url = url.split('/url?q=')[1].split('&')[0]`. -/
def stripRedirect (url : Str) : Str :=
  if isPre redirPre url then
    (splitL ampStr ((splitL redirPre url).getD 1 [])).getD 0 []
  else url

/-- `SyncURLFilter.filter_youtube_url` from `app_working.py`. -/
def filter_youtube_url (url : Str) : Option Str :=
  if url = [] then none
  else
    let u := stripRedirect url
    if hasSub ytDomain u &&
        (hasSub patChannel u || hasSub patC u || hasSub patAt u || hasSub patUser u) then
      some u
    else none

/-- `SyncURLFilter.filter_twitch_url` from `app_working.py`. -/
def filter_twitch_url (url : Str) : Option Str :=
  if url = [] then none
  else
    let u := stripRedirect url
    if hasSub twDomain u && decide (4 ≤ (splitL slashStr u).length) then
      some u
    else none

/-! ## Name extraction and query construction (`SyncChannelFinder`) -/

/-- Domain marker `x.com`. -/
def xDomain : Str := ['x', '.', 'c', 'o', 'm']

/-- Domain marker `twitter.com`. -/
def twtDomain : Str := ['t', 'w', 'i', 't', 't', 'e', 'r', '.', 'c', 'o', 'm']

/-- Reserved X/Twitter paths that are never usernames. -/
def reservedPaths : List Str :=
  [ "home".toList, "explore".toList, "notifications".toList, "messages".toList,
    "bookmarks".toList, "lists".toList, "profile".toList, "more".toList,
    "compose".toList, "search".toList, "settings".toList, "help".toList ]

/-- The scan of `extract_name_from_url`'s X/Twitter branch over the
    `/`-separated parts: find a part equal to `x.com`/`twitter.com` that has a
    following part; clean that following part; skip reserved paths. -/
def scanXParts : List Str → Option Str
  | [] => none
  | [_] => none
  | p :: next :: rest =>
    if p == xDomain || p == twtDomain then
      let u := if hasSub qmStr next then (splitL qmStr next).getD 0 [] else next
      let u := u.filter (fun c => !(c == '@'))
      if reservedPaths.contains u then scanXParts (next :: rest)
      else some (stripWs u)
    else scanXParts (next :: rest)

/-- `SyncChannelFinder.extract_name_from_url` from `app_working.py`
    (returns `[]` where Python returns the empty string). -/
def extract_name_from_url (url : Str) : Str :=
  if hasSub xDomain url || hasSub twtDomain url then
    match scanXParts (splitL slashStr url) with
    | some n => n
    | none => []
  else
    let path := if hasSub slashStr url then (splitL slashStr url).getLastD [] else url
    let path := if hasSub qmStr path then (splitL qmStr path).getD 0 [] else path
    let path := path.filter (fun c => !(c == '@'))
    let cleaned := stripWs path
    if cleaned ≠ [] then cleaned else []

/-- Python `f'"{s}"'`. -/
def quoteStr (s : Str) : Str := '"' :: (s ++ ['"'])

/-- The literal `""` that degenerate queries are compared against. -/
def quoteQuote : Str := ['"', '"']

/-- The candidate queries of `find_channels_for_user`, in construction order,
    before the degenerate-entry filter and the cap (lines 405-418). -/
def rawQueries (username profile_name url : Str) : List Str :=
  (if username ≠ [] then [quoteStr username] else []) ++
  (if profile_name ≠ [] ∧ profile_name ≠ username then [quoteStr profile_name] else []) ++
  (if username ≠ [] ∧ profile_name ≠ [] then [username ++ ' ' :: profile_name] else []) ++
  (if url ≠ [] then
    let n := extract_name_from_url url
    if n ≠ [] ∧ n ≠ username ∧ n ≠ profile_name then [quoteStr n] else []
  else [])

/-- The final query list of `find_channels_for_user`: degenerate entries
    dropped, capped at 3 (lines 421-422). -/
def buildQueries (username profile_name url : Str) : List Str :=
  ((rawQueries username profile_name url).filter
    (fun q => !(stripWs q == quoteQuote) && !(stripWs q == []))).take 3

/-! ## The search-and-match loop (`SyncChannelFinder.find_channels_for_user`) -/

/-- A raw search result (title and url; the snippet plays no role here). -/
structure SearchResult where
  title : Str
  url : Str
  deriving DecidableEq

/-- The two target platforms. -/
inductive Platform where
  | youtube
  | twitch
  deriving DecidableEq

/-- The external capabilities consumed by the loop: the search engine
    (`none` models a raised exception) and the `EnhancedMatcher`. -/
structure Oracles where
  search : Str → Platform → Option (List SearchResult)
  accept : Str → Str → Str → Bool
  score : Str → Str → Str → Str → Int

/-- The per-platform URL filter dispatch (lines 440-443). -/
def filterFor : Platform → Str → Option Str
  | .youtube => filter_youtube_url
  | .twitch => filter_twitch_url

/-- The running best match: `{'score': 0, 'title': None, 'url': None}`. -/
structure Best where
  score : Int
  title : Option Str
  url : Option Str
  deriving DecidableEq

/-- The initial best match of a platform pass (line 428). -/
def bestInit : Best := { score := 0, title := none, url := none }

/-- The inner result loop (lines 435-466): skip results the filter rejects;
    at the first result the matcher accepts, record the floored score, the
    title and the cleaned url, and break. -/
def scanResults (o : Oracles) (pf : Platform) (username profile_name : Str) :
    List SearchResult → Option (Int × Str × Str)
  | [] => none
  | r :: rest =>
    match filterFor pf r.url with
    | none => scanResults o pf username profile_name rest
    | some clean =>
      if o.accept clean username profile_name then
        let ms := o.score username profile_name r.title clean
        let ms := if ms < 50 then 50 else ms
        some (ms, r.title, clean)
      else scanResults o pf username profile_name rest

/-- What one platform pass records: the successive values of the best match
    (one entry per processed query), the final best match, and the queries
    for which a search was issued. -/
structure PassLog where
  trace : List Best
  best : Best
  issued : List Str
  deriving DecidableEq

/-- The value of the best match after processing one successful search's
    results (lines 434-466): unchanged when the result list is empty or no
    result is accepted, otherwise replaced by the first accepted result. -/
def stepBest (o : Oracles) (pf : Platform) (username profile_name : Str)
    (best : Best) (results : List SearchResult) : Best :=
  if results.isEmpty then best
  else
    match scanResults o pf username profile_name results with
    | some (ms, t, u) => { score := ms, title := some t, url := some u }
    | none => best

/-- The query loop of one platform pass (lines 430-481). A `none` search
    models the `except` branch (line 472): log and continue with the next
    query. After a successful search the best match is replaced by the first
    accepted result, if any; when the best score reaches 50 the loop breaks
    (lines 469 and 477). -/
def queryLoop (o : Oracles) (pf : Platform) (username profile_name : Str)
    (best : Best) : List Str → PassLog
  | [] => { trace := [], best := best, issued := [] }
  | q :: rest =>
    match o.search q pf with
    | none =>
      let L := queryLoop o pf username profile_name best rest
      { trace := best :: L.trace, best := L.best, issued := q :: L.issued }
    | some results =>
      let best' := stepBest o pf username profile_name best results
      if 50 ≤ best'.score then { trace := [best'], best := best', issued := [q] }
      else
        let L := queryLoop o pf username profile_name best' rest
        { trace := best' :: L.trace, best := L.best, issued := q :: L.issued }

/-- One platform pass: run the query loop from `bestInit` and keep the url
    and score only when the final best score reaches 50 (lines 484-490);
    also reports the queries that were searched. -/
def platformPass (o : Oracles) (pf : Platform) (username profile_name : Str)
    (queries : List Str) : (Option Str × Int) × List Str :=
  let L := queryLoop o pf username profile_name bestInit queries
  (if 50 ≤ L.best.score then (L.best.url, L.best.score) else (none, 0), L.issued)

/-- The final result of `find_channels_for_user` (lines 397-402, 484-492). -/
structure FindResult where
  youtube_url : Option Str
  youtube_score : Int
  twitch_url : Option Str
  twitch_score : Int
  deriving DecidableEq

/-- `SyncChannelFinder.find_channels_for_user`: build the queries once and
    run both platform passes over them. -/
def find_channels_for_user (o : Oracles) (username profile_name url : Str) :
    FindResult :=
  let queries := buildQueries username profile_name url
  let yt := (platformPass o .youtube username profile_name queries).1
  let tw := (platformPass o .twitch username profile_name queries).1
  { youtube_url := yt.1, youtube_score := yt.2,
    twitch_url := tw.1, twitch_score := tw.2 }

/-! ## Batch processing (`process_users_with_real_logic`) -/

/-- One input row (the required CSV columns). -/
structure Row where
  username : Str
  profile_name : Str
  url : Str
  followers : Str
  deriving DecidableEq

/-- One output row: the input columns plus the four match columns
    (lines 541-550 and 557-566). -/
structure OutRow where
  username : Str
  profile_name : Str
  url : Str
  followers : Str
  youtube_url : Str
  youtube_score : Int
  twitch_url : Str
  twitch_score : Int
  deriving DecidableEq

/-- Default row (used only as a `getD` fallback in statements). -/
def rowDflt : Row := { username := [], profile_name := [], url := [], followers := [] }

/-- Default output row (used only as a `getD` fallback in statements). -/
def outDflt : OutRow :=
  { username := [], profile_name := [], url := [], followers := [],
    youtube_url := [], youtube_score := 0, twitch_url := [], twitch_score := 0 }

/-- The per-row step of the batch loop: on success, combine the original
    columns with the channels found (`or ''` turns a missing url into the
    empty string); on an exception (`find r = none`), emit the zero/empty
    row (lines 535-567). -/
def mkOutRow (find : Row → Option FindResult) (r : Row) : OutRow :=
  match find r with
  | some ch =>
    { username := r.username, profile_name := r.profile_name, url := r.url,
      followers := r.followers,
      youtube_url := ch.youtube_url.getD [], youtube_score := ch.youtube_score,
      twitch_url := ch.twitch_url.getD [], twitch_score := ch.twitch_score }
  | none =>
    { username := r.username, profile_name := r.profile_name, url := r.url,
      followers := r.followers,
      youtube_url := [], youtube_score := 0, twitch_url := [], twitch_score := 0 }

/-- `process_users_with_real_logic`: one output row per input row, in input
    order; a row's failure never aborts the batch (lines 519-572). -/
def process_users (find : Row → Option FindResult) : List Row → List OutRow
  | [] => []
  | r :: rest => mkOutRow find r :: process_users find rest

/-- The finder actually used by the batch, with an arbitrary exception
    pattern `exc` modelling `except Exception` around the row (line 554). -/
def findWrap (o : Oracles) (exc : Row → Bool) : Row → Option FindResult :=
  fun r =>
    if exc r then none
    else some (find_channels_for_user o r.username r.profile_name r.url)

/-! ## Proxy pool (`SyncProxyManager`) -/

/-- The mutable state of `SyncProxyManager`: the (shuffled) proxy list, the
    rotation index, and the failure set (a proxy is identified by its
    `http://ip:port` key). -/
structure ProxyState where
  proxies : List Str
  currentIndex : Nat
  failedProxies : List Str
  deriving DecidableEq

/-- The bounded skip loop of `get_next_proxy` (lines 96-105): at most
    `attempts` steps, advancing the rotation index each time, returning the
    first proxy not in the failure set. -/
def getNextAux (s : ProxyState) : Nat → Option Str × ProxyState
  | 0 => (none, s)
  | fuel + 1 =>
    let proxy := s.proxies.getD s.currentIndex []
    let s' := { s with currentIndex := (s.currentIndex + 1) % s.proxies.length }
    if proxy ∈ s.failedProxies then getNextAux s' fuel else (some proxy, s')

/-- `SyncProxyManager.get_next_proxy` (lines 91-107). -/
def get_next_proxy (s : ProxyState) : Option Str × ProxyState :=
  if s.proxies = [] then (none, s) else getNextAux s s.proxies.length

/-- `SyncProxyManager.mark_proxy_failed` (lines 109-113): `none` models the
    falsy (`None`) proxy argument. -/
def mark_proxy_failed (s : ProxyState) : Option Str → ProxyState
  | none => s
  | some p => { s with failedProxies := p :: s.failedProxies }

/-- The operations a client can perform on the pool. -/
inductive PoolOp where
  | getNext
  | markFailed (p : Option Str)

/-- Run a sequence of pool operations, collecting every value returned by
    `get_next_proxy`. -/
def runPool (s : ProxyState) : List PoolOp → ProxyState × List (Option Str)
  | [] => (s, [])
  | .getNext :: ops =>
    let r := get_next_proxy s
    let rest := runPool r.2 ops
    (rest.1, r.1 :: rest.2)
  | .markFailed p :: ops => runPool (mark_proxy_failed s p) ops

/-- The reachable shapes of the best match: either still the initial value,
    or a recorded match (score already floored at 50, url a nonempty
    filtered url). -/
def BestInv (b : Best) : Prop :=
  b = bestInit ∨ (50 ≤ b.score ∧ ∃ v, b.url = some v ∧ v ≠ [])

/-! ## Concrete fixtures used for witness instantiations -/

/-- An oracle whose matcher accepts everything with a low computed score. -/
def oracleLowScore : Oracles :=
  { search := fun _ _ => some [], accept := fun _ _ _ => true,
    score := fun _ _ _ _ => 10 }

/-- A concrete search result whose url both URL filters reject. -/
def resultBad : SearchResult := { title := "bad".toList, url := "x".toList }

/-- A concrete search result with a clean YouTube channel url. -/
def resultGood : SearchResult :=
  { title := "Good".toList, url := "https://www.youtube.com/channel/abc".toList }

/-- An oracle that returns one rejected and one clean result and computes a
    match score of 80. -/
def oracleEighty : Oracles :=
  { search := fun _ _ => some [resultBad, resultGood],
    accept := fun _ _ _ => true, score := fun _ _ _ _ => 80 }

/-- A concrete input row. -/
def rowW : Row :=
  { username := "alice".toList, profile_name := "Alice W".toList,
    url := "https://x.com/alicew".toList, followers := "10".toList }

/-! ## Basic facts about the string primitives -/

theorem isPre_iff {a b : Str} : isPre a b = true ↔ ∃ t, b = a ++ t := by
  induction a generalizing b with
  | nil => simp [isPre]
  | cons c as ih =>
    cases b with
    | nil =>
      simp only [isPre, List.cons_append]
      constructor
      · intro h; cases h
      · rintro ⟨t, ht⟩; cases ht
    | cons d bs =>
      simp only [isPre, Bool.and_eq_true, beq_iff_eq, List.cons_append]
      constructor
      · rintro ⟨rfl, h⟩
        obtain ⟨t, rfl⟩ := ih.mp h
        exact ⟨t, rfl⟩
      · rintro ⟨t, ht⟩
        injection ht with h1 h2
        exact ⟨h1.symm, ih.mpr ⟨t, h2⟩⟩

theorem isPre_append_self {a b : Str} : isPre a (a ++ b) = true :=
  isPre_iff.mpr ⟨b, rfl⟩

theorem isPre_take {a x : Str} {k : Nat} (h : isPre a (x.take k) = true) :
    isPre a x = true := by
  obtain ⟨t, ht⟩ := isPre_iff.mp h
  refine isPre_iff.mpr ⟨t ++ x.drop k, ?_⟩
  conv_lhs => rw [← List.take_append_drop k x]
  rw [ht, List.append_assoc]

theorem hasSub_ne_nil {a l : Str} (h : hasSub a l = true) : l ≠ [] := by
  intro hl
  subst hl
  simp [hasSub, findSep] at h

theorem findSep_isPre_some {sep l : Str} (hs : sep ≠ []) (h : isPre sep l = true) :
    findSep sep l = some 0 := by
  cases l with
  | nil =>
    cases sep with
    | nil => exact absurd rfl hs
    | cons c cs => simp [isPre] at h
  | cons c rest => simp [findSep, h]

theorem isPre_false_of_findSep_none {sep l : Str} (hs : sep ≠ [])
    (h : findSep sep l = none) : isPre sep l = false := by
  cases hp : isPre sep l
  · rfl
  · rw [findSep_isPre_some hs hp] at h
    cases h

theorem findSep_take {sep l : Str} : ∀ {i : Nat}, findSep sep l = some i →
    findSep sep (l.take i) = none := by
  induction l with
  | nil => intro i h; simp [findSep] at h
  | cons c rest ih =>
    intro i h
    by_cases hp : isPre sep (c :: rest) = true
    · rw [findSep, if_pos hp] at h
      injection h with h'
      subst h'
      rfl
    · rw [findSep, if_neg hp] at h
      cases hr : findSep sep rest with
      | none => rw [hr] at h; simp at h
      | some i' =>
        rw [hr] at h
        simp only [Option.map_some'] at h
        injection h with h'
        subst h'
        show findSep sep (c :: rest.take i') = none
        have h1 : isPre sep (c :: rest.take i') = false := by
          cases hq : isPre sep (c :: rest.take i')
          · rfl
          · exact absurd (isPre_take (x := c :: rest) (k := i' + 1) hq) hp
        rw [findSep, if_neg (by simp [h1]), ih hr]
        rfl

theorem findSep_firstSeg {sep l : Str} : findSep sep (firstSeg sep l) = none := by
  cases h : findSep sep l with
  | none => rw [show firstSeg sep l = l from by simp [firstSeg, h]]; exact h
  | some i => simp [firstSeg, h, findSep_take h]

theorem firstSeg_eq_take {sep l : Str} : ∃ k, firstSeg sep l = l.take k := by
  cases h : findSep sep l with
  | none => exact ⟨l.length, by simp [firstSeg, h]⟩
  | some i => exact ⟨i, by simp [firstSeg, h]⟩

theorem take_len_append {α : Type} (a b : List α) : (a ++ b).take a.length = a := by
  induction a with
  | nil => rfl
  | cons c as ih => simp [List.take, ih]

theorem drop_len_append {α : Type} (a b : List α) : (a ++ b).drop a.length = b := by
  induction a with
  | nil => rfl
  | cons c as ih => simp [List.drop, ih]

theorem take_append_le {α : Type} (a b : List α) {n : Nat} (h : n ≤ a.length) :
    (a ++ b).take n = a.take n := by
  induction a generalizing n with
  | nil => cases n with
    | zero => rfl
    | succ m => simp at h
  | cons c as ih =>
    cases n with
    | zero => rfl
    | succ m => simp [List.take, ih (Nat.le_of_succ_le_succ h)]

theorem drop_append_le {α : Type} (a b : List α) {n : Nat} (h : n ≤ a.length) :
    (a ++ b).drop n = a.drop n ++ b := by
  induction a generalizing n with
  | nil =>
    cases n with
    | zero => rfl
    | succ m => simp at h
  | cons c as ih =>
    cases n with
    | zero => rfl
    | succ m => simp [List.drop, ih (Nat.le_of_succ_le_succ h)]

theorem take_append_more {α : Type} (a b : List α) (n : Nat) :
    (a ++ b).take (a.length + n) = a ++ b.take n := by
  induction a with
  | nil => simp
  | cons c as ih =>
    have : (c :: as).length + n = (as.length + n) + 1 := by
      simp [List.length_cons]
      omega
    rw [this]
    simp [List.take, ih]

theorem getD0_splitLF {sep : Str} {f : Nat} {l : Str} :
    (splitLF sep (f + 1) l).getD 0 [] = firstSeg sep l := by
  cases h : findSep sep l <;> simp [splitLF, firstSeg, h]

theorem splitL_getD0 {sep l : Str} : (splitL sep l).getD 0 [] = firstSeg sep l := by
  rw [splitL]
  exact getD0_splitLF

theorem getD1_splitL_append {sep m : Str} (hs : sep ≠ []) :
    (splitL sep (sep ++ m)).getD 1 [] = firstSeg sep m := by
  have h0 : findSep sep (sep ++ m) = some 0 :=
    findSep_isPre_some hs isPre_append_self
  obtain ⟨c, cs, rfl⟩ : ∃ c cs, sep = c :: cs := by
    cases sep with
    | nil => exact absurd rfl hs
    | cons c cs => exact ⟨c, cs, rfl⟩
  rw [splitL]
  simp only [splitLF, h0]
  simp only [List.take_zero, Nat.zero_add, List.getD_cons_succ]
  cases hm : findSep (c :: cs) m <;> simp [firstSeg, hm]

theorem stripRedirect_append {m : Str} :
    stripRedirect (redirPre ++ m) = firstSeg ampStr (firstSeg redirPre m) := by
  rw [stripRedirect, if_pos (by simp [isPre_append_self]),
    getD1_splitL_append (by decide), splitL_getD0]

theorem isPre_redir_stripRedirect (url : Str) :
    isPre redirPre (stripRedirect url) = false := by
  by_cases hp : isPre redirPre url = true
  · obtain ⟨m, rfl⟩ := isPre_iff.mp hp
    rw [stripRedirect_append]
    obtain ⟨k, hk⟩ := @firstSeg_eq_take ampStr (firstSeg redirPre m)
    rw [hk]
    cases hq : isPre redirPre ((firstSeg redirPre m).take k)
    · rfl
    · exfalso
      have h1 : isPre redirPre (firstSeg redirPre m) = true := isPre_take hq
      have h0 := findSep_isPre_some (by decide) h1
      rw [findSep_firstSeg] at h0
      cases h0
  · rw [stripRedirect, if_neg hp]
    cases h : isPre redirPre url
    · rfl
    · exact absurd h hp

theorem findSep_some_decomp {sep l : Str} : ∀ {i : Nat}, findSep sep l = some i →
    ∃ pre post, l = pre ++ sep ++ post ∧ pre.length = i := by
  induction l with
  | nil => intro i h; simp [findSep] at h
  | cons c rest ih =>
    intro i h
    by_cases hp : isPre sep (c :: rest) = true
    · rw [findSep, if_pos hp] at h
      injection h with h'
      subst h'
      obtain ⟨t, ht⟩ := isPre_iff.mp hp
      exact ⟨[], t, by simp [ht], rfl⟩
    · rw [findSep, if_neg hp] at h
      cases hr : findSep sep rest with
      | none => rw [hr] at h; simp at h
      | some i' =>
        rw [hr] at h
        simp only [Option.map_some'] at h
        injection h with h'
        subst h'
        obtain ⟨pre, post, hdecomp, hlen⟩ := ih hr
        exact ⟨c :: pre, post, by simp [hdecomp], by simp [hlen]⟩

theorem findSep_isSome_of_decomp {sep : Str} (hs : sep ≠ []) (pre post : Str) :
    (findSep sep (pre ++ sep ++ post)).isSome = true := by
  induction pre with
  | nil =>
    simp only [List.nil_append]
    rw [findSep_isPre_some hs isPre_append_self]
    rfl
  | cons c pre' ih =>
    show (findSep sep (c :: (pre' ++ sep ++ post))).isSome = true
    rw [findSep]
    by_cases hp : isPre sep (c :: (pre' ++ sep ++ post)) = true
    · rw [if_pos hp]; rfl
    · rw [if_neg hp]
      cases hr : findSep sep (pre' ++ sep ++ post) with
      | none => rw [hr] at ih; cases ih
      | some j => simp [hr]

theorem findSep_amp {t : Str} (s : Str) (h : '&' ∉ t) :
    findSep ampStr (t ++ '&' :: s) = some t.length := by
  induction t with
  | nil =>
    rw [List.nil_append, findSep, if_pos]
    · rfl
    · simp [isPre, ampStr]
  | cons c t' ih =>
    have hc : isPre ampStr (c :: (t' ++ '&' :: s)) = false := by
      simp only [ampStr, isPre]
      cases hb : ('&' == c) with
      | false => rfl
      | true =>
        exfalso
        exact h (by rw [beq_iff_eq.mp hb]; exact List.mem_cons_self c t')
    rw [List.cons_append, findSep, if_neg (by simp [hc]),
      ih (fun hm => h (List.mem_cons_of_mem _ hm))]
    rfl

theorem firstSeg_amp {t : Str} (s : Str) (h : '&' ∉ t) :
    firstSeg ampStr (t ++ '&' :: s) = t := by
  simp only [firstSeg, findSep_amp s h]
  exact take_len_append t _

theorem firstSeg_redir_wrapped {t rest : Str} (hocc : findSep redirPre t = none) :
    ∃ s', firstSeg redirPre (t ++ '&' :: rest) = t ++ '&' :: s' := by
  cases h : findSep redirPre (t ++ '&' :: rest) with
  | none => exact ⟨rest, by simp [firstSeg, h]⟩
  | some i =>
    obtain ⟨pre, post, hdec, hlen⟩ := findSep_some_decomp h
    rcases Nat.lt_or_ge i (t.length + 1) with hlt | hge
    · exfalso
      have hi : i ≤ t.length := Nat.lt_succ_iff.mp hlt
      obtain ⟨d, hdDef⟩ : ∃ d, t.drop i = d := ⟨_, rfl⟩
      have key : d ++ '&' :: rest = redirPre ++ post := by
        calc d ++ '&' :: rest = (t ++ '&' :: rest).drop i := by
              rw [drop_append_le t _ hi, hdDef]
          _ = (pre ++ redirPre ++ post).drop i := by rw [hdec]
          _ = redirPre ++ post := by rw [List.append_assoc, ← hlen, drop_len_append]
      rcases Nat.lt_or_ge d.length redirPre.length with hgt | hle
      case inr =>
        have h3 : redirPre = d.take redirPre.length := by
          calc redirPre = (redirPre ++ post).take redirPre.length :=
                (take_len_append _ _).symm
            _ = (d ++ '&' :: rest).take redirPre.length := by rw [key]
            _ = d.take redirPre.length := take_append_le _ _ hle
        have h4 : d = redirPre ++ d.drop redirPre.length := by
          conv_lhs => rw [← List.take_append_drop redirPre.length d]
          rw [← h3]
        have h5 : t = t.take i ++ redirPre ++ d.drop redirPre.length := by
          rw [List.append_assoc]
          calc t = t.take i ++ t.drop i := (List.take_append_drop i t).symm
            _ = t.take i ++ d := by rw [hdDef]
            _ = t.take i ++ (redirPre ++ d.drop redirPre.length) := by
                conv_lhs => rw [h4]
        have h6 := @findSep_isSome_of_decomp redirPre (by decide)
          (t.take i) (d.drop redirPre.length)
        rw [← h5, hocc] at h6
        cases h6
      · have h6 : redirPre.drop d.length ++ post = '&' :: rest := by
          calc redirPre.drop d.length ++ post = (redirPre ++ post).drop d.length :=
                (drop_append_le _ _ (Nat.le_of_lt hgt)).symm
            _ = (d ++ '&' :: rest).drop d.length := by rw [key]
            _ = '&' :: rest := drop_len_append _ _
        cases hdd : redirPre.drop d.length with
        | nil =>
          have hlen2 := congrArg List.length hdd
          simp only [List.length_drop, List.length_nil] at hlen2
          omega
        | cons x xs =>
          rw [hdd, List.cons_append] at h6
          injection h6 with h7 h8
          have hx : x ∈ redirPre := by
            have hmem : x ∈ redirPre.drop d.length := by
              rw [hdd]; exact List.mem_cons_self _ _
            exact List.mem_of_mem_drop hmem
          rw [h7] at hx
          exact absurd hx (by decide)
    · obtain ⟨j, hj⟩ : ∃ j, i = t.length + (1 + j) := ⟨i - t.length - 1, by omega⟩
      refine ⟨rest.take j, ?_⟩
      simp only [firstSeg, h]
      rw [hj, take_append_more]
      congr 1
      rw [Nat.add_comm 1 j]
      rfl

theorem stripRedirect_wrapped {t rest : Str} (hocc : findSep redirPre t = none)
    (hamp : '&' ∉ t) :
    stripRedirect (redirPre ++ (t ++ '&' :: rest)) = t := by
  rw [stripRedirect_append]
  obtain ⟨s', hs'⟩ := @firstSeg_redir_wrapped t rest hocc
  rw [hs', firstSeg_amp _ hamp]

/-! ## Shape of the URL filters' outputs -/

theorem filter_youtube_some {url v : Str} (h : filter_youtube_url url = some v) :
    v = stripRedirect url ∧ hasSub ytDomain v = true ∧
      (hasSub patChannel v || hasSub patC v || hasSub patAt v ||
        hasSub patUser v) = true := by
  by_cases h0 : url = []
  · rw [h0] at h; simp [filter_youtube_url] at h
  · simp only [filter_youtube_url, if_neg h0] at h
    split at h
    next hc =>
      injection h with h'
      subst h'
      simp only [Bool.and_eq_true] at hc
      exact ⟨rfl, hc.1, hc.2⟩
    next hc => cases h

theorem filter_twitch_some {url v : Str} (h : filter_twitch_url url = some v) :
    v = stripRedirect url ∧ hasSub twDomain v = true ∧
      4 ≤ (splitL slashStr v).length := by
  by_cases h0 : url = []
  · rw [h0] at h; simp [filter_twitch_url] at h
  · simp only [filter_twitch_url, if_neg h0] at h
    split at h
    next hc =>
      injection h with h'
      subst h'
      simp only [Bool.and_eq_true, decide_eq_true_eq] at hc
      exact ⟨rfl, hc.1, hc.2⟩
    next hc => cases h

theorem filter_youtube_some_ne_nil {url v : Str} (h : filter_youtube_url url = some v) :
    v ≠ [] :=
  hasSub_ne_nil (filter_youtube_some h).2.1

theorem filter_twitch_some_ne_nil {url v : Str} (h : filter_twitch_url url = some v) :
    v ≠ [] :=
  hasSub_ne_nil (filter_twitch_some h).2.1

theorem filterFor_some_ne_nil {pf : Platform} {url v : Str}
    (h : filterFor pf url = some v) : v ≠ [] := by
  cases pf with
  | youtube => exact filter_youtube_some_ne_nil h
  | twitch => exact filter_twitch_some_ne_nil h

/-! ## Behaviour of the search-and-match loop -/

theorem scanResults_some_spec {o : Oracles} {pf : Platform} {un pn : Str}
    {rs : List SearchResult} {ms : Int} {t u : Str}
    (h : scanResults o pf un pn rs = some (ms, t, u)) :
    50 ≤ ms ∧ u ≠ [] ∧ o.accept u un pn = true ∧
      ms = (if o.score un pn t u < 50 then 50 else o.score un pn t u) := by
  induction rs with
  | nil => simp [scanResults] at h
  | cons r rest ih =>
    rw [scanResults] at h
    split at h
    · exact ih h
    · rename_i clean hf
      by_cases ha : o.accept clean un pn = true
      · rw [if_pos ha] at h
        simp only [Option.some.injEq, Prod.mk.injEq] at h
        obtain ⟨hms, hts, hus⟩ := h
        subst hms
        subst hts
        subst hus
        refine ⟨?_, filterFor_some_ne_nil hf, ha, rfl⟩
        by_cases hlt : o.score un pn r.title clean < 50
        · simp [hlt]
        · simp only [if_neg hlt]
          omega
      · rw [if_neg ha] at h
        exact ih h

theorem stepBest_inv {o : Oracles} {pf : Platform} {un pn : Str} {b : Best}
    {results : List SearchResult} (hb : BestInv b) :
    BestInv (stepBest o pf un pn b results) := by
  rw [stepBest]
  split
  · exact hb
  · cases hscan : scanResults o pf un pn results with
    | none => exact hb
    | some trip =>
      obtain ⟨ms, t, u⟩ := trip
      obtain ⟨h1, h2, -, -⟩ := scanResults_some_spec hscan
      exact Or.inr ⟨h1, u, rfl, h2⟩

theorem stepBest_mono {o : Oracles} {pf : Platform} {un pn : Str} {b : Best}
    {results : List SearchResult} (hb : b.score ≤ 50) :
    b.score ≤ (stepBest o pf un pn b results).score := by
  rw [stepBest]
  split
  · exact le_refl _
  · cases hscan : scanResults o pf un pn results with
    | none => exact le_refl _
    | some trip =>
      obtain ⟨ms, t, u⟩ := trip
      obtain ⟨h1, -, -, -⟩ := scanResults_some_spec hscan
      exact le_trans hb h1

theorem queryLoop_best_inv {o : Oracles} {pf : Platform} {un pn : Str} :
    ∀ (qs : List Str) (b : Best), BestInv b →
      BestInv (queryLoop o pf un pn b qs).best := by
  intro qs
  induction qs with
  | nil => intro b hb; exact hb
  | cons q rest ih =>
    intro b hb
    rw [queryLoop]
    cases hs : o.search q pf with
    | none => exact ih b hb
    | some results =>
      simp only
      by_cases hge : 50 ≤ (stepBest o pf un pn b results).score
      · rw [if_pos hge]
        exact stepBest_inv hb
      · rw [if_neg hge]
        exact ih _ (stepBest_inv hb)

theorem platformPass_url_iff (o : Oracles) (pf : Platform) (un pn : Str)
    (qs : List Str) :
    ((platformPass o pf un pn qs).1.1.getD [] ≠ [] ↔
      50 ≤ (platformPass o pf un pn qs).1.2) := by
  have hinv := @queryLoop_best_inv o pf un pn qs bestInit (Or.inl rfl)
  rw [platformPass]
  by_cases hge : 50 ≤ (queryLoop o pf un pn bestInit qs).best.score
  · simp only [if_pos hge]
    rcases hinv with h0 | ⟨hsc, v, hurl, hv⟩
    · rw [h0] at hge
      exact absurd hge (by decide)
    · simp [hurl, hv, hge]
  · simp only [if_neg hge]
    simp only [Option.getD_none, ne_eq, not_true_eq_false]
    constructor
    · intro hfalse; exact hfalse.elim
    · intro hle; exact absurd hle (by decide)

theorem find_channels_url_iff (o : Oracles) (un pn url : Str) :
    (((find_channels_for_user o un pn url).youtube_url.getD [] ≠ []) ↔
        50 ≤ (find_channels_for_user o un pn url).youtube_score) ∧
      (((find_channels_for_user o un pn url).twitch_url.getD [] ≠ []) ↔
        50 ≤ (find_channels_for_user o un pn url).twitch_score) :=
  ⟨platformPass_url_iff o .youtube un pn (buildQueries un pn url),
    platformPass_url_iff o .twitch un pn (buildQueries un pn url)⟩

/-! ## Behaviour of the proxy pool -/

theorem getNextAux_failed {e : Str} :
    ∀ (fuel : Nat) (s : ProxyState), e ∈ s.failedProxies →
      (getNextAux s fuel).1 ≠ some e ∧
        (getNextAux s fuel).2.failedProxies = s.failedProxies := by
  intro fuel
  induction fuel with
  | zero =>
    intro s he
    exact ⟨by simp [getNextAux], rfl⟩
  | succ n ih =>
    intro s he
    rw [getNextAux]
    split
    · exact ih _ he
    next hnot =>
      refine ⟨?_, rfl⟩
      intro hcontra
      injection hcontra with h'
      exact hnot (h' ▸ he)

theorem get_next_proxy_failed {s : ProxyState} {e : Str}
    (he : e ∈ s.failedProxies) :
    (get_next_proxy s).1 ≠ some e ∧
      (get_next_proxy s).2.failedProxies = s.failedProxies := by
  rw [get_next_proxy]
  split
  · exact ⟨by simp, rfl⟩
  · exact getNextAux_failed _ s he

theorem runPool_failed {e : Str} :
    ∀ (ops : List PoolOp) (s : ProxyState), e ∈ s.failedProxies →
      some e ∉ (runPool s ops).2 := by
  intro ops
  induction ops with
  | nil => intro s he; simp [runPool]
  | cons op rest ih =>
    intro s he
    cases op with
    | getNext =>
      rw [runPool]
      intro hmem
      obtain ⟨hne, heq⟩ := get_next_proxy_failed (s := s) he
      rcases List.mem_cons.mp hmem with h1 | h2
      · exact hne h1.symm
      · exact ih _ (heq ▸ he) h2
    | markFailed p =>
      rw [runPool]
      apply ih
      cases p with
      | none => exact he
      | some k => exact List.mem_cons_of_mem _ he

/-! ## Small evaluation equations used by the claim proofs -/

theorem filter_youtube_eval {u : Str} (hne : u ≠ []) :
    filter_youtube_url u =
      (if hasSub ytDomain (stripRedirect u) &&
          (hasSub patChannel (stripRedirect u) || hasSub patC (stripRedirect u) ||
            hasSub patAt (stripRedirect u) || hasSub patUser (stripRedirect u)) then
        some (stripRedirect u) else none) := by
  rw [filter_youtube_url, if_neg hne]

theorem filter_twitch_eval {u : Str} (hne : u ≠ []) :
    filter_twitch_url u =
      (if hasSub twDomain (stripRedirect u) &&
          decide (4 ≤ (splitL slashStr (stripRedirect u)).length) then
        some (stripRedirect u) else none) := by
  rw [filter_twitch_url, if_neg hne]

theorem redir_append_ne_nil (x : Str) : redirPre ++ x ≠ [] := by
  intro hcontra
  have hlen := congrArg List.length hcontra
  simp [redirPre] at hlen

theorem mkOutRow_none {find : Row → Option FindResult} {r : Row}
    (h : find r = none) :
    mkOutRow find r =
      { username := r.username, profile_name := r.profile_name, url := r.url,
        followers := r.followers, youtube_url := [], youtube_score := 0,
        twitch_url := [], twitch_score := 0 } := by
  rw [mkOutRow, h]

theorem mkOutRow_some {find : Row → Option FindResult} {r : Row} {ch : FindResult}
    (h : find r = some ch) :
    mkOutRow find r =
      { username := r.username, profile_name := r.profile_name, url := r.url,
        followers := r.followers,
        youtube_url := ch.youtube_url.getD [], youtube_score := ch.youtube_score,
        twitch_url := ch.twitch_url.getD [], twitch_score := ch.twitch_score } := by
  rw [mkOutRow, h]

/-! ## The claims -/

/-- Claim C2: for every search result whose cleaned URL the matcher accepts,
    if the computed match score is below 50 then the recorded score is
    exactly 50, and an accepted match is never recorded with a score below
    50. -/
theorem claim_c2 (o : Oracles) (pf : Platform) (un pn : Str)
    (rs : List SearchResult) (ms : Int) (t u : Str)
    (h : scanResults o pf un pn rs = some (ms, t, u)) :
    o.accept u un pn = true ∧ (o.score un pn t u < 50 → ms = 50) ∧ 50 ≤ ms := by
  obtain ⟨h1, -, h3, h4⟩ := scanResults_some_spec h
  exact ⟨h3, fun hlt => by rw [h4, if_pos hlt], h1⟩

/-- Witness for C2: a matcher that accepts with computed score 10 records
    exactly 50. -/
theorem claim_c2_witness :
    oracleLowScore.accept "https://www.youtube.com/channel/abc".toList [] [] = true ∧
      (oracleLowScore.score [] [] "Good".toList
          "https://www.youtube.com/channel/abc".toList < 50 → (50 : Int) = 50) ∧
      (50 : Int) ≤ 50 :=
  claim_c2 oracleLowScore .youtube [] [] [resultGood] 50 "Good".toList
    "https://www.youtube.com/channel/abc".toList (by decide)

/-- Counterexample to C4 as stated: `filter_twitch_url` does NOT return none
    on the bare root `https://twitch.tv/` (its `/`-split has exactly 4
    segments, the last one empty, so the `>= 4` check passes). -/
theorem claim_c4_counterexample :
    filter_twitch_url "https://twitch.tv/".toList ≠ none := by decide

/-- Claim C4 (amended): `filter_twitch_url "https://twitch.tv/"` returns the
    URL unchanged (the bare root passes the 4-segment check because the
    trailing slash yields a fourth, empty segment), and
    `filter_twitch_url "https://twitch.tv/somechannel"` returns the URL
    unchanged. -/
theorem claim_c4_amended :
    filter_twitch_url "https://twitch.tv/".toList =
        some "https://twitch.tv/".toList ∧
      filter_twitch_url "https://twitch.tv/somechannel".toList =
        some "https://twitch.tv/somechannel".toList :=
  ⟨by decide, by decide⟩

/-- Claim C9: for the identity username `alice`, display name `Alice W`,
    source url `https://x.com/alicew`, query construction generates the four
    candidates in order and caps the list at 3. -/
theorem claim_c9 :
    rawQueries "alice".toList "Alice W".toList "https://x.com/alicew".toList =
        [ "\"alice\"".toList, "\"Alice W\"".toList, "alice Alice W".toList,
          "\"alicew\"".toList ] ∧
      buildQueries "alice".toList "Alice W".toList "https://x.com/alicew".toList =
        [ "\"alice\"".toList, "\"Alice W\"".toList, "alice Alice W".toList ] :=
  ⟨by decide, by decide⟩

/-- Counterexample to C10 as stated: a redirect-wrapped string containing
    `twitch.tv` with at least 4 slash-separated segments is NOT returned
    unchanged — the filter strips the wrapper first. -/
theorem claim_c10_counterexample :
    hasSub twDomain "/url?q=a/b/twitch.tv/c&x".toList = true ∧
      4 ≤ (splitL slashStr "/url?q=a/b/twitch.tv/c&x".toList).length ∧
      filter_twitch_url "/url?q=a/b/twitch.tv/c&x".toList ≠
        some "/url?q=a/b/twitch.tv/c&x".toList := by
  refine ⟨by decide, by decide, by decide⟩

/-- Claim C10 (amended): domain validation is substring containment, not
    host comparison. For every string that does not start with the redirect
    wrapper `/url?q=`: if it contains `twitch.tv` anywhere and has at least
    4 slash-separated segments, `filter_twitch_url` returns it unchanged;
    likewise `filter_youtube_url` accepts any such string containing
    `youtube.com` together with one of the channel path patterns, regardless
    of its actual host. -/
theorem claim_c10_amended :
    (∀ s : Str, isPre redirPre s = false → hasSub twDomain s = true →
        4 ≤ (splitL slashStr s).length → filter_twitch_url s = some s) ∧
      ∀ s : Str, isPre redirPre s = false → hasSub ytDomain s = true →
        (hasSub patChannel s || hasSub patC s || hasSub patAt s ||
          hasSub patUser s) = true → filter_youtube_url s = some s := by
  constructor
  · intro s hpre hdom hlen
    have hne : s ≠ [] := hasSub_ne_nil hdom
    have hstrip : stripRedirect s = s := by
      rw [stripRedirect, if_neg (by simp [hpre])]
    rw [filter_twitch_eval hne, hstrip, if_pos (by rw [hdom]; simp [hlen])]
  · intro s hpre hdom hpat
    have hne : s ≠ [] := hasSub_ne_nil hdom
    have hstrip : stripRedirect s = s := by
      rw [stripRedirect, if_neg (by simp [hpre])]
    rw [filter_youtube_eval hne, hstrip, if_pos (by rw [hdom, hpat]; rfl)]

/-- Witness for C10 (amended): strings whose platform marker sits in the
    path of a different host are accepted unchanged. -/
theorem claim_c10_witness :
    filter_twitch_url "http://evil.example/twitch.tv/x".toList =
        some "http://evil.example/twitch.tv/x".toList ∧
      filter_youtube_url "http://evil.example/youtube.com/channel/x".toList =
        some "http://evil.example/youtube.com/channel/x".toList :=
  ⟨claim_c10_amended.1 _ (by decide) (by decide) (by decide),
    claim_c10_amended.2 _ (by decide) (by decide) (by decide)⟩

/-- Counterexample to C5 as stated: the Google-redirect-wrapped form with a
    percent-ENCODED target does not produce the same filtered result as the
    already-clean form — `filter_youtube_url` never percent-decodes, so the
    encoded form contains none of the channel path patterns and is rejected,
    while the clean form is accepted. -/
theorem claim_c5_counterexample :
    filter_youtube_url
        "/url?q=https%3A%2F%2Fwww.youtube.com%2Fchannel%2Fabc&sa=x".toList ≠
      filter_youtube_url "https://www.youtube.com/channel/abc".toList := by
  decide

/-- Claim C5 (amended): `filter_youtube_url` is idempotent, and the
    redirect-wrapped form produces the same filtered result as the clean
    form whenever the target appears verbatim in the wrapper (no `&` in the
    target and no nested `/url?q=` marker) — but not for percent-encoded
    targets. -/
theorem claim_c5_amended :
    (∀ u : Str, (filter_youtube_url u).bind filter_youtube_url =
        filter_youtube_url u) ∧
      ∀ t rest : Str, findSep redirPre t = none → '&' ∉ t →
        filter_youtube_url (redirPre ++ (t ++ '&' :: rest)) =
          filter_youtube_url t := by
  constructor
  · intro u
    cases h : filter_youtube_url u with
    | none => rfl
    | some v =>
      show filter_youtube_url v = some v
      obtain ⟨hv, hd, hp⟩ := filter_youtube_some h
      have hne : v ≠ [] := hasSub_ne_nil hd
      have hstrip : stripRedirect v = v := by
        have hfalse : isPre redirPre v = false := by
          rw [hv]; exact isPre_redir_stripRedirect u
        rw [stripRedirect, if_neg (by simp [hfalse])]
      rw [filter_youtube_eval hne, hstrip, if_pos (by rw [hd, hp]; rfl)]
  · intro t rest hocc hamp
    have hwrap : stripRedirect (redirPre ++ (t ++ '&' :: rest)) = t :=
      stripRedirect_wrapped hocc hamp
    by_cases ht : t = []
    · subst ht
      rw [filter_youtube_eval (redir_append_ne_nil _), hwrap]
      rw [show hasSub ytDomain ([] : Str) = false from rfl]
      simp only [Bool.false_and, if_false]
      decide
    · have hstript : stripRedirect t = t := by
        have hfalse : isPre redirPre t = false :=
          isPre_false_of_findSep_none (by decide) hocc
        rw [stripRedirect, if_neg (by simp [hfalse])]
      rw [filter_youtube_eval (redir_append_ne_nil _), hwrap,
        filter_youtube_eval ht, hstript]

/-- Witness for C5 (amended): a verbatim-wrapped clean channel URL filters
    to the same result as the clean URL itself. -/
theorem claim_c5_witness :
    filter_youtube_url (redirPre ++
        ("https://www.youtube.com/channel/abc".toList ++ '&' :: "sa=x".toList)) =
      filter_youtube_url "https://www.youtube.com/channel/abc".toList :=
  claim_c5_amended.2 "https://www.youtube.com/channel/abc".toList "sa=x".toList
    (by decide) (by decide)

/-- Claim C1: for every identity processed (including identities whose
    resolution raised an exception), each platform's url field in the output
    row is non-empty if and only if that platform's score field is at
    least 50. -/
theorem claim_c1 (o : Oracles) (exc : Row → Bool) (rows : List Row)
    (out : OutRow) (hmem : out ∈ process_users (findWrap o exc) rows) :
    (out.youtube_url ≠ [] ↔ 50 ≤ out.youtube_score) ∧
      (out.twitch_url ≠ [] ↔ 50 ≤ out.twitch_score) := by
  induction rows with
  | nil => simp [process_users] at hmem
  | cons r rest ih =>
    rw [process_users] at hmem
    rcases List.mem_cons.mp hmem with h1 | h2
    · subst h1
      by_cases hexc : exc r = true
      · have hfw : findWrap o exc r = none := by simp [findWrap, hexc]
        rw [mkOutRow_none hfw]
        show (([] : Str) ≠ [] ↔ (50 : Int) ≤ 0) ∧ (([] : Str) ≠ [] ↔ (50 : Int) ≤ 0)
        exact ⟨by decide, by decide⟩
      · have hfw : findWrap o exc r =
            some (find_channels_for_user o r.username r.profile_name r.url) := by
          simp [findWrap, hexc]
        rw [mkOutRow_some hfw]
        exact find_channels_url_iff o r.username r.profile_name r.url
    · exact ih h2

/-- Witness for C1 at a concrete one-row batch with no exception. -/
theorem claim_c1_witness :
    ((mkOutRow (findWrap oracleLowScore (fun _ => false)) rowW).youtube_url ≠ [] ↔
        50 ≤ (mkOutRow (findWrap oracleLowScore (fun _ => false)) rowW).youtube_score) ∧
      ((mkOutRow (findWrap oracleLowScore (fun _ => false)) rowW).twitch_url ≠ [] ↔
        50 ≤ (mkOutRow (findWrap oracleLowScore (fun _ => false)) rowW).twitch_score) :=
  claim_c1 oracleLowScore (fun _ => false) [rowW] _ (List.mem_cons_self _ _)

theorem scanResults_skip {o : Oracles} {pf : Platform} {un pn : Str} :
    ∀ (pre : List SearchResult), (∀ x ∈ pre, filterFor pf x.url = none) →
      ∀ tail, scanResults o pf un pn (pre ++ tail) = scanResults o pf un pn tail := by
  intro pre
  induction pre with
  | nil => intro _ tail; rfl
  | cons x xs ih =>
    intro hpre tail
    rw [List.cons_append, scanResults]
    split
    · exact ih (fun y hy => hpre y (List.mem_cons_of_mem _ hy)) tail
    · rename_i clean hf
      rw [hpre x (List.mem_cons_self _ _)] at hf
      cases hf

/-- Claim C3: when the first query's first filter-qualifying result is
    accepted by the matcher with a computed score of 80, the platform pass
    issues no further searches (the issued-query list is exactly the first
    query) and the platform's output score is exactly 80. -/
theorem claim_c3 (o : Oracles) (pf : Platform) (un pn q : Str) (rest : List Str)
    (results pre post : List SearchResult) (r : SearchResult) (clean : Str)
    (hsearch : o.search q pf = some results)
    (hsplit : results = pre ++ r :: post)
    (hpre : ∀ x ∈ pre, filterFor pf x.url = none)
    (hfilter : filterFor pf r.url = some clean)
    (haccept : o.accept clean un pn = true)
    (hscore : o.score un pn r.title clean = 80) :
    platformPass o pf un pn (q :: rest) = ((some clean, 80), [q]) := by
  have hscan0 : scanResults o pf un pn (r :: post) = some (80, r.title, clean) := by
    rw [scanResults]
    split
    · rename_i hf
      rw [hfilter] at hf
      cases hf
    · rename_i clean2 hf
      rw [hfilter] at hf
      injection hf with hf'
      subst hf'
      rw [if_pos haccept]
      show some ((if o.score un pn r.title clean < 50 then 50
        else o.score un pn r.title clean), r.title, clean) = some (80, r.title, clean)
      rw [hscore, if_neg (by decide : ¬ (80 : Int) < 50)]
  have hie : results.isEmpty = false := by
    rw [hsplit]; cases pre <;> rfl
  have hscan : scanResults o pf un pn results = some (80, r.title, clean) := by
    rw [hsplit, scanResults_skip pre hpre]
    exact hscan0
  have hstep : stepBest o pf un pn bestInit results =
      { score := 80, title := some r.title, url := some clean } := by
    rw [stepBest, if_neg (by rw [hie]; exact Bool.false_ne_true), hscan]
  have hql : queryLoop o pf un pn bestInit (q :: rest) =
      { trace := [{ score := 80, title := some r.title, url := some clean }],
        best := { score := 80, title := some r.title, url := some clean },
        issued := [q] } := by
    rw [queryLoop, hsearch]
    simp only [hstep]
    rfl
  rw [platformPass, hql]
  rfl

/-- Witness for C3 at a concrete oracle: the first query's first qualifying
    result scores 80; only the first query is issued and the output is 80. -/
theorem claim_c3_witness :
    platformPass oracleEighty .youtube "alice".toList "Alice W".toList
        ("q1".toList :: ["q2".toList]) =
      ((some "https://www.youtube.com/channel/abc".toList, 80), ["q1".toList]) :=
  claim_c3 oracleEighty .youtube "alice".toList "Alice W".toList "q1".toList
    ["q2".toList] [resultBad, resultGood] [resultBad] [] resultGood
    "https://www.youtube.com/channel/abc".toList rfl rfl (by decide) (by decide)
    rfl rfl

theorem queryLoop_chain {o : Oracles} {pf : Platform} {un pn : Str} :
    ∀ (qs : List Str) (b : Best), b.score ≤ 50 →
      List.Chain (fun a c => a.score ≤ c.score) b
        (queryLoop o pf un pn b qs).trace := by
  intro qs
  induction qs with
  | nil => intro b hb; exact List.Chain.nil
  | cons q rest ih =>
    intro b hb
    rw [queryLoop]
    cases hs : o.search q pf with
    | none => exact List.Chain.cons (le_refl _) (ih b hb)
    | some results =>
      simp only
      by_cases hge : 50 ≤ (stepBest o pf un pn b results).score
      · rw [if_pos hge]
        exact List.Chain.cons (stepBest_mono hb) List.Chain.nil
      · rw [if_neg hge]
        exact List.Chain.cons (stepBest_mono hb) (ih _ (by omega))

/-- Claim C6: during one platform pass the best-match candidate starts at
    score 0 with no url, and the successive values its score takes are
    monotonically non-decreasing: it is only ever replaced by a match whose
    recorded score is at least the current score. -/
theorem claim_c6 :
    bestInit.score = 0 ∧ bestInit.url = none ∧
      ∀ (o : Oracles) (pf : Platform) (un pn : Str) (qs : List Str),
        List.Chain (fun a c => a.score ≤ c.score) bestInit
          (queryLoop o pf un pn bestInit qs).trace :=
  ⟨rfl, rfl, fun _ _ _ _ qs => queryLoop_chain qs bestInit (by decide)⟩

/-- Claim C7: once an endpoint is marked failed, no subsequent
    `get_next_proxy` call on the pool ever returns it, for any sequence of
    later pool operations. -/
theorem claim_c7 (s : ProxyState) (e : Str) (ops : List PoolOp) :
    ((runPool (mark_proxy_failed s (some e)) ops).2.all
      (fun r => !(r == some e))) = true := by
  rw [List.all_eq_true]
  intro x hx
  have hne : x ≠ some e := by
    intro hxe
    subst hxe
    exact runPool_failed ops _ (List.mem_cons_self _ _) hx
  cases hbeq : x == some e with
  | false => rfl
  | true => exact absurd (eq_of_beq hbeq) hne

/-- Claim C8: the batch output has exactly one row per input row, in input
    order, preserving the original columns; a failed resolution yields a
    zero-score/empty-url row for that identity and never aborts the
    batch. -/
theorem claim_c8 (find : Row → Option FindResult) (rows : List Row) :
    (process_users find rows).length = rows.length ∧
      ∀ i : Nat, i < rows.length →
        ((process_users find rows).getD i outDflt).username =
            (rows.getD i rowDflt).username ∧
          ((process_users find rows).getD i outDflt).profile_name =
            (rows.getD i rowDflt).profile_name ∧
          ((process_users find rows).getD i outDflt).url =
            (rows.getD i rowDflt).url ∧
          ((process_users find rows).getD i outDflt).followers =
            (rows.getD i rowDflt).followers ∧
          (find (rows.getD i rowDflt) = none →
            ((process_users find rows).getD i outDflt).youtube_url = [] ∧
              ((process_users find rows).getD i outDflt).youtube_score = 0 ∧
              ((process_users find rows).getD i outDflt).twitch_url = [] ∧
              ((process_users find rows).getD i outDflt).twitch_score = 0) := by
  induction rows with
  | nil =>
    refine ⟨rfl, ?_⟩
    intro i hi
    exact absurd hi (by simp)
  | cons r rest ih =>
    refine ⟨?_, ?_⟩
    · show (mkOutRow find r :: process_users find rest).length = rest.length + 1
      rw [List.length_cons, ih.1]
    · intro i hi
      cases i with
      | zero =>
        simp only [process_users, List.getD_cons_zero]
        cases hfr : find r with
        | none =>
          rw [mkOutRow_none hfr]
          exact ⟨rfl, rfl, rfl, rfl, fun _ => ⟨rfl, rfl, rfl, rfl⟩⟩
        | some ch =>
          rw [mkOutRow_some hfr]
          refine ⟨rfl, rfl, rfl, rfl, fun hnone => ?_⟩
          cases hnone
      | succ n =>
        simp only [process_users, List.getD_cons_succ]
        exact ih.2 n (Nat.lt_of_succ_lt_succ hi)

/-- Witness for C8: a one-row batch whose finder raises. -/
theorem claim_c8_witness :
    (process_users (fun _ => (none : Option FindResult)) [rowW]).length =
        ([rowW] : List Row).length ∧
      (((process_users (fun _ => (none : Option FindResult)) [rowW]).getD 0
            outDflt).username = (([rowW] : List Row).getD 0 rowDflt).username ∧
        ((process_users (fun _ => (none : Option FindResult)) [rowW]).getD 0
            outDflt).profile_name = (([rowW] : List Row).getD 0 rowDflt).profile_name ∧
        ((process_users (fun _ => (none : Option FindResult)) [rowW]).getD 0
            outDflt).url = (([rowW] : List Row).getD 0 rowDflt).url ∧
        ((process_users (fun _ => (none : Option FindResult)) [rowW]).getD 0
            outDflt).followers = (([rowW] : List Row).getD 0 rowDflt).followers ∧
        ((fun _ => (none : Option FindResult)) (([rowW] : List Row).getD 0 rowDflt) =
            none →
          ((process_users (fun _ => (none : Option FindResult)) [rowW]).getD 0
              outDflt).youtube_url = [] ∧
            ((process_users (fun _ => (none : Option FindResult)) [rowW]).getD 0
              outDflt).youtube_score = 0 ∧
            ((process_users (fun _ => (none : Option FindResult)) [rowW]).getD 0
              outDflt).twitch_url = [] ∧
            ((process_users (fun _ => (none : Option FindResult)) [rowW]).getD 0
              outDflt).twitch_score = 0)) :=
  ⟨(claim_c8 (fun _ => none) [rowW]).1,
    (claim_c8 (fun _ => none) [rowW]).2 0 (by decide)⟩

end Scraper
